import Mathlib

/-!
Verification development for the trading repository.

Two parts are modelled:

1. The dot-separated configuration lookup (`get`) of the three configuration
   manager variants present in the source:
   - `configGet_trading`  embeds `ConfigManager.get` of
     `src/trading/utils/config.py` (try/except around repeated indexing,
     catching `KeyError` and `TypeError`);
   - `configGet_utils`    embeds `Config.get` of `src/utils/config.py`
     (iterative `value.get(k, default)` guarded by `isinstance(value, dict)`);
   - `configGet_manager`  embeds `ConfigManager.get` of
     `src/trading/utils/config_manager.py` (like the previous one, with an
     extra `hasattr`/`getattr` branch tried on every non-dictionary value).

2. The time-series Data Manager (`trading.data.manager.DataManager`).  Its
   implementation file is not part of the provided sources (only its test
   suite is), so every Data Manager definition below is modelled from the
   specification; each such definition carries a doc comment starting with
   `Modelled from the spec:`.

Configuration values are modelled as a tree: dictionaries (YAML mappings),
attribute-bearing objects (the validated config models of the third variant),
and scalar leaves.  In Python, `hasattr`/`getattr` can succeed on values of
any type — `hasattr("hello", "title")` holds, `hasattr(5, "real")` holds — so
the third variant's attribute branch is modelled by an explicit attribute
table `attrs : Value → String → Option Value` over which its theorems
quantify: `attrs v k = some w` models `hasattr(v, k)` returning true with
`getattr(v, k) == w`, and `attrs v k = none` models `hasattr(v, k)` returning
false.  Dictionaries never reach the attribute branch in the source (the
`isinstance(value, dict)` test is tried first), so `attrs` is only ever
consulted on non-dictionary values.
-/

/-- A configuration value: a dictionary with string keys, an attribute-bearing
object, or a scalar leaf (string or number). -/
inductive Value where
  | vdict : List (String × Value) → Value
  | vobj : List (String × Value) → Value
  | vstr : String → Value
  | vint : Int → Value

/-- First-match association-list lookup, the model of Python `dict` lookup
(dictionary keys are unique, so first match is the match). -/
def assocFind : List (String × Value) → String → Option Value
  | [], _ => none
  | (k, v) :: rest, key => if k = key then some v else assocFind rest key

/-- Whether a value is a dictionary (`isinstance(value, dict)`). -/
def Value.isDict : Value → Bool
  | .vdict _ => true
  | _ => false

/-- Python `value[k]` on a configuration value: returns the entry of a
dictionary (`KeyError` if the key is missing), and raises `TypeError` on any
non-dictionary value; both exceptions are collapsed to `.error ()`. -/
def getitemVal : Value → String → Except Unit Value
  | .vdict d, k =>
    match assocFind d k with
    | some v => .ok v
    | none => .error ()
  | _, _ => .error ()

/-- The body of the `try` block of `ConfigManager.get` in
`src/trading/utils/config.py`: `for k in keys: value = value[k]`, propagating
the first `KeyError`/`TypeError`. -/
def getRaw_trading : Value → List String → Except Unit Value
  | v, [] => .ok v
  | v, k :: ks =>
    match getitemVal v k with
    | .ok v2 => getRaw_trading v2 ks
    | .error e => .error e

/-- `ConfigManager.get` of `src/trading/utils/config.py`: traverse the nested
dictionaries along the already-split key; on `KeyError` or `TypeError` return
the default. -/
def configGet_trading (cfg : Value) (keys : List String) (dft : Value) : Value :=
  match getRaw_trading cfg keys with
  | .ok v => v
  | .error _ => dft

/-- `Config.get` of `src/utils/config.py`: for each segment, if the current
value is a dictionary take `value.get(k, default)`, otherwise return the
default; finally return the current value. -/
def configGet_utils : Value → List String → Value → Value
  | v, [], _ => v
  | .vdict d, k :: ks, dft => configGet_utils ((assocFind d k).getD dft) ks dft
  | _, _ :: _, dft => dft

/-- `ConfigManager.get` of `src/trading/utils/config_manager.py`: for each
segment, if the current value is a dictionary take `value.get(k, default)`;
otherwise — for a value of any other type — if `hasattr(value, k)` follow
`getattr(value, k)` per the attribute table `attrs`, else return the
default; finally return the current value. -/
def configGet_manager (attrs : Value → String → Option Value) :
    Value → List String → Value → Value
  | v, [], _ => v
  | .vdict d, k :: ks, dft => configGet_manager attrs ((assocFind d k).getD dft) ks dft
  | v, k :: ks, dft =>
    match attrs v k with
    | some v2 => configGet_manager attrs v2 ks dft
    | none => dft

/-- Reference resolution of a dot-separated path through nested dictionaries
only: `some v` when every segment resolves, `none` otherwise. -/
def pathLookupD : Value → List String → Option Value
  | v, [] => some v
  | .vdict d, k :: ks =>
    match assocFind d k with
    | some v2 => pathLookupD v2 ks
    | none => none
  | _, _ :: _ => none

/-- Reference resolution of a dot-separated path through nested dictionaries
and, on non-dictionary values, through the attribute table `attrs`: `some v`
when every segment resolves, `none` otherwise. -/
def pathLookupA (attrs : Value → String → Option Value) :
    Value → List String → Option Value
  | v, [] => some v
  | .vdict d, k :: ks =>
    match assocFind d k with
    | some v2 => pathLookupA attrs v2 ks
    | none => none
  | v, k :: ks =>
    match attrs v k with
    | some v2 => pathLookupA attrs v2 ks
    | none => none

/-- A concrete attribute table for witnesses and counterexamples, mirroring
real Python attribute lookup on the values it mentions: objects expose their
fields, and strings expose a `title` attribute whose value stands in for the
bound method `str.title` (which `getattr("hello", "title")` returns); every
other lookup fails. -/
def pyAttrsEx : Value → String → Option Value
  | .vobj fields, k => assocFind fields k
  | .vstr _, k => if k = "title" then some (.vstr "<bound method str.title>") else none
  | _, _ => none

/-! ## Data Manager model

The Data Manager implementation (`trading/data/manager.py`) is not among the
provided sources; everything below is modelled from the specification.
Timestamps are seconds since an epoch (naturals); the five numeric fields of a
price bar are opaque scalars modelled as integers (no arithmetic is ever done
on them, only equality). -/

/-- A point in time, in seconds. -/
abbrev Timestamp := Nat

/-- Modelled from the spec: one price-bar record's five numeric fields
(open, high, low, close, volume); `open` is a Lean keyword, so the fields are
abbreviated. -/
structure Row where
  op : Int
  hi : Int
  lo : Int
  cl : Int
  vol : Int
deriving DecidableEq, Repr

/-- Modelled from the spec: a persisted price series — an ordered sequence of
`(timestamp, record)` pairs for one `(symbol, interval)` key. -/
abbrev PriceSeries := List (Timestamp × Row)

/-- A storage/cache key: `(symbol, interval)`. -/
abbrev Key := String × String

/-- An element of a frame's index: either a proper timestamp or a
non-temporal label (e.g. an integer position). -/
inductive IdxElem where
  | ts : Timestamp → IdxElem
  | nonTemporal : Nat → IdxElem
deriving DecidableEq, Repr

/-- Whether an index element is temporal. -/
def IdxElem.isTemporal : IdxElem → Bool
  | .ts _ => true
  | .nonTemporal _ => false

/-- Modelled from the spec: an input series handed to `save_data` /
`update_data` before validation.  `cols` is the set of column names present
(what validation inspects); each row pairs an index element with the record
payload. -/
structure Frame where
  cols : List String
  rows : List (IdxElem × Row)
deriving DecidableEq, Repr

/-- The five required columns of a price series. -/
def requiredColumns : List String := ["open", "high", "low", "close", "volume"]

/-- The records of a frame whose index elements are temporal, as a persisted
series. -/
def Frame.toSeries (f : Frame) : PriceSeries :=
  f.rows.filterMap fun p =>
    match p.1 with
    | .ts t => some (t, p.2)
    | .nonTemporal _ => none

/-- Modelled from the spec: validation of an input series.  Fails with
`ValidationError` (collapsed to `.error ()`) exactly when the series is
empty, a required column is missing, or the index is not temporal. -/
def validateFrame (f : Frame) : Except Unit Unit :=
  if f.rows.isEmpty then .error ()
  else if requiredColumns.any (fun c => !(f.cols.contains c)) then .error ()
  else if !(f.rows.all fun p => p.1.isTemporal) then .error ()
  else .ok ()

/-- Modelled from the spec: the durable storage backend, a map from keys to
persisted series.  A write prepends; a read takes the most recent write, so a
write is observationally a full replace of the slot. -/
abbrev Store := List (Key × PriceSeries)

/-- Read of the storage backend: the most recently written series for the
key, if any. -/
def lookupStore (st : Store) (k : Key) : Option PriceSeries :=
  (st.find? fun p => p.1 = k).map (·.2)

/-- Write of the storage backend: full replace of the slot for the key. -/
def insertStore (st : Store) (k : Key) (s : PriceSeries) : Store :=
  (k, s) :: st

/-- Modelled from the spec: `save_data(series, symbol, interval)` — validate,
then durably overwrite the storage slot for `(symbol, interval)` with the
given series (full replace).  Returns the `ValidationError`-or-ok outcome
together with the resulting durable state. -/
def save_data (st : Store) (f : Frame) (symbol interval : String) :
    Except Unit Unit × Store :=
  match validateFrame f with
  | .error e => (.error e, st)
  | .ok _ => (.ok (), insertStore st (symbol, interval) f.toSeries)

/-- Modelled from the spec: `load_data(symbol, interval)` — the durable
series for the key, or absent (no error on a missing key). -/
def load_data (st : Store) (symbol interval : String) : Option PriceSeries :=
  lookupStore st (symbol, interval)

/-- Comparison of series entries by timestamp. -/
def tsLE (a b : Timestamp × Row) : Prop := a.1 ≤ b.1

instance : DecidableRel tsLE := fun a b => Nat.decLe a.1 b.1

instance : IsTotal (Timestamp × Row) tsLE := ⟨fun a b => Nat.le_total a.1 b.1⟩

instance : IsTrans (Timestamp × Row) tsLE := ⟨fun _ _ _ h h2 => Nat.le_trans h h2⟩

/-- Chronological sort of a series (stable, by timestamp). -/
def sortByTs (s : PriceSeries) : PriceSeries :=
  List.insertionSort tsLE s

/-- Modelled from the spec: merge of an existing series with newly fetched
records — the union keyed by timestamp, the new series winning at each shared
timestamp (last-write-wins), chronologically sorted. -/
def mergeSeries (old new : PriceSeries) : PriceSeries :=
  sortByTs ((old.filter fun p => !(new.any fun q => q.1 = p.1)) ++ new)

/-- Modelled from the spec: `update_data(new_series, symbol, interval)` —
validate `new_series` with the same rules as `save_data`, load the existing
series (if any), merge, and persist the union. -/
def update_data (st : Store) (f : Frame) (symbol interval : String) :
    Except Unit Unit × Store :=
  match validateFrame f with
  | .error e => (.error e, st)
  | .ok _ =>
    let old := (lookupStore st (symbol, interval)).getD []
    (.ok (), insertStore st (symbol, interval) (mergeSeries old f.toSeries))

/-- Modelled from the spec: `get_latest_data(symbol, interval)` — the maximum
timestamp in the durable series for the key, or absent if the key has no
data. -/
def get_latest_data (st : Store) (symbol interval : String) : Option Timestamp :=
  match lookupStore st (symbol, interval) with
  | none => none
  | some [] => none
  | some (p :: ps) => some (ps.foldl (fun m q => max m q.1) p.1)

/-- Modelled from the spec: a cache entry — snapshot, insertion time, ttl in
seconds. -/
abbrev CacheEntry := PriceSeries × Timestamp × Nat

/-- Modelled from the spec: the cache backend, a map from keys to entries.
A put prepends; a read takes the most recent put, so a put observationally
overwrites any prior entry for the same key. -/
abbrev Cache := List (Key × CacheEntry)

/-- Read of the cache backend: the most recently put entry for the key. -/
def lookupCache (c : Cache) (k : Key) : Option CacheEntry :=
  (c.find? fun p => p.1 = k).map (·.2)

/-- Physical removal of a key's entries from the cache. -/
def removeCache (c : Cache) (k : Key) : Cache :=
  c.filter fun p => !(p.1 = k : Bool)

/-- Modelled from the spec: `cache_data(series, symbol, interval, ttl)` —
store a snapshot keyed by `(symbol, interval)`, tagged with the current time
`now` and `ttl`, overwriting any prior entry for the key. -/
def cache_data (c : Cache) (s : PriceSeries) (symbol interval : String)
    (now : Timestamp) (ttl : Nat) : Cache :=
  ((symbol, interval), (s, now, ttl)) :: c

/-- Modelled from the spec: `get_cached_data(symbol, interval)` at time `now`
— the cached snapshot if present and `now - insertion_time < ttl`; otherwise
absent, removing the stale entry.  Returns the result together with the cache
state after the access. -/
def get_cached_data (c : Cache) (symbol interval : String) (now : Timestamp) :
    Option PriceSeries × Cache :=
  match lookupCache c (symbol, interval) with
  | none => (none, c)
  | some (s, t0, ttl) =>
    if now - t0 < ttl then (some s, c)
    else (none, removeCache c (symbol, interval))

/-- Modelled from the spec: the recognized interval values and their step in
seconds (the fixed enumerated set `{1m, 5m, 15m, 1h, 1d}`); unrecognized
values are rejected. -/
def intervalSeconds (iv : String) : Option Nat :=
  if iv = "1m" then some 60
  else if iv = "5m" then some 300
  else if iv = "15m" then some 900
  else if iv = "1h" then some 3600
  else if iv = "1d" then some 86400
  else none

/-- Modelled from the spec: the expected timestamps at step granularity
spanning `[s, e]` — the arithmetic progression `s, s + step, …` up to `e`. -/
def expectedTimestamps (step s e : Nat) : List Timestamp :=
  if s ≤ e then (List.range ((e - s) / step + 1)).map fun i => s + i * step
  else []

/-- Prepend one missing expected timestamp `t` to an already-grouped list of
gaps, merging it into the first gap when `t` is its immediate predecessor at
step granularity. -/
def mergeGap (step t : Nat) : List (Nat × Nat) → List (Nat × Nat)
  | [] => [(t, t)]
  | (a, b) :: rest => if t + step = a then (t, b) :: rest else (t, t) :: (a, b) :: rest

/-- Group a chronologically ordered list of missing expected timestamps into
its maximal contiguous runs at step granularity, each run reported as its
(first, last) pair. -/
def gapRuns (step : Nat) : List Nat → List (Nat × Nat)
  | [] => []
  | t :: ts => mergeGap step t (gapRuns step ts)

/-- The expected timestamps over `[s, e]` that are missing from the stored
series `ser`. -/
def missingOf (step s e : Nat) (ser : PriceSeries) : List Timestamp :=
  (expectedTimestamps step s e).filter fun t => !((ser.map (·.1)).contains t)

/-- Modelled from the spec: `get_data_gaps(symbol, interval, start_date,
end_date)` — `ValidationError` on an unrecognized interval; a single gap
covering the whole range when no durable data exists for the key; otherwise
the maximal contiguous runs of expected timestamps missing from the stored
series, in chronological order. -/
def get_data_gaps (st : Store) (symbol interval : String) (s e : Nat) :
    Except Unit (List (Nat × Nat)) :=
  match intervalSeconds interval with
  | none => .error ()
  | some step =>
    match lookupStore st (symbol, interval) with
    | none => .ok [(s, e)]
    | some ser => .ok (gapRuns step (missingOf step s e ser))

theorem pathLookupD_ok_trading (ks : List String) (v w : Value)
    (h : pathLookupD v ks = some w) : getRaw_trading v ks = .ok w := by
  induction ks generalizing v with
  | nil => simpa [pathLookupD, getRaw_trading] using h
  | cons k ks ih =>
    cases v with
    | vdict d =>
      cases hf : assocFind d k with
      | none => simp [pathLookupD, hf] at h
      | some v2 =>
        simp [pathLookupD, hf] at h
        simp [getRaw_trading, getitemVal, hf]
        exact ih v2 h
    | vobj fields => simp [pathLookupD] at h
    | vstr s => simp [pathLookupD] at h
    | vint n => simp [pathLookupD] at h

theorem pathLookupD_err_trading (ks : List String) (v : Value)
    (h : pathLookupD v ks = none) : getRaw_trading v ks = .error () := by
  induction ks generalizing v with
  | nil => simp [pathLookupD] at h
  | cons k ks ih =>
    cases v with
    | vdict d =>
      cases hf : assocFind d k with
      | none => simp [getRaw_trading, getitemVal, hf]
      | some v2 =>
        simp [pathLookupD, hf] at h
        simp [getRaw_trading, getitemVal, hf]
        exact ih v2 h
    | vobj fields => simp [getRaw_trading, getitemVal]
    | vstr s => simp [getRaw_trading, getitemVal]
    | vint n => simp [getRaw_trading, getitemVal]

theorem configGet_utils_ok (ks : List String) (v w dft : Value)
    (h : pathLookupD v ks = some w) : configGet_utils v ks dft = w := by
  induction ks generalizing v with
  | nil => simpa [pathLookupD, configGet_utils] using h
  | cons k ks ih =>
    cases v with
    | vdict d =>
      cases hf : assocFind d k with
      | none => simp [pathLookupD, hf] at h
      | some v2 =>
        simp [pathLookupD, hf] at h
        simp [configGet_utils, hf]
        exact ih v2 h
    | vobj fields => simp [pathLookupD] at h
    | vstr s => simp [pathLookupD] at h
    | vint n => simp [pathLookupD] at h

theorem configGet_utils_default_self (ks : List String) (dft : Value)
    (hd : dft.isDict = false) : configGet_utils dft ks dft = dft := by
  cases ks with
  | nil => cases dft <;> rfl
  | cons k ks =>
    cases dft with
    | vdict d => simp [Value.isDict] at hd
    | vobj fields => rfl
    | vstr s => rfl
    | vint n => rfl

theorem configGet_utils_none (ks : List String) (v dft : Value)
    (h : pathLookupD v ks = none) (hd : dft.isDict = false) :
    configGet_utils v ks dft = dft := by
  induction ks generalizing v with
  | nil => simp [pathLookupD] at h
  | cons k ks ih =>
    cases v with
    | vdict d =>
      cases hf : assocFind d k with
      | none =>
        simp [configGet_utils, hf]
        exact configGet_utils_default_self ks dft hd
      | some v2 =>
        simp [pathLookupD, hf] at h
        simp [configGet_utils, hf]
        exact ih v2 h
    | vobj fields => rfl
    | vstr s => rfl
    | vint n => rfl

theorem pathLookupA_nondict_none (attrs : Value → String → Option Value)
    (v : Value) (k : String) (ks : List String)
    (hv : v.isDict = false) (hf : attrs v k = none) :
    pathLookupA attrs v (k :: ks) = none := by
  cases v with
  | vdict d => simp [Value.isDict] at hv
  | vobj fields => simp [pathLookupA, hf]
  | vstr s => simp [pathLookupA, hf]
  | vint n => simp [pathLookupA, hf]

theorem pathLookupA_nondict_some (attrs : Value → String → Option Value)
    (v v2 : Value) (k : String) (ks : List String)
    (hv : v.isDict = false) (hf : attrs v k = some v2) :
    pathLookupA attrs v (k :: ks) = pathLookupA attrs v2 ks := by
  cases v with
  | vdict d => simp [Value.isDict] at hv
  | vobj fields => simp [pathLookupA, hf]
  | vstr s => simp [pathLookupA, hf]
  | vint n => simp [pathLookupA, hf]

theorem configGet_manager_nondict_none (attrs : Value → String → Option Value)
    (v : Value) (k : String) (ks : List String) (dft : Value)
    (hv : v.isDict = false) (hf : attrs v k = none) :
    configGet_manager attrs v (k :: ks) dft = dft := by
  cases v with
  | vdict d => simp [Value.isDict] at hv
  | vobj fields => simp [configGet_manager, hf]
  | vstr s => simp [configGet_manager, hf]
  | vint n => simp [configGet_manager, hf]

theorem configGet_manager_nondict_some (attrs : Value → String → Option Value)
    (v v2 : Value) (k : String) (ks : List String) (dft : Value)
    (hv : v.isDict = false) (hf : attrs v k = some v2) :
    configGet_manager attrs v (k :: ks) dft = configGet_manager attrs v2 ks dft := by
  cases v with
  | vdict d => simp [Value.isDict] at hv
  | vobj fields => simp [configGet_manager, hf]
  | vstr s => simp [configGet_manager, hf]
  | vint n => simp [configGet_manager, hf]

theorem configGet_manager_ok (attrs : Value → String → Option Value)
    (ks : List String) (v w dft : Value)
    (h : pathLookupA attrs v ks = some w) : configGet_manager attrs v ks dft = w := by
  induction ks generalizing v with
  | nil =>
    simp [pathLookupA] at h
    cases v <;> simpa [configGet_manager] using h
  | cons k ks ih =>
    cases v with
    | vdict d =>
      cases hf : assocFind d k with
      | none => simp [pathLookupA, hf] at h
      | some v2 =>
        simp [pathLookupA, hf] at h
        simp [configGet_manager, hf]
        exact ih v2 h
    | vobj fields =>
      cases hf : attrs (Value.vobj fields) k with
      | none =>
        rw [pathLookupA_nondict_none attrs (Value.vobj fields) k ks rfl hf] at h
        cases h
      | some v2 =>
        rw [pathLookupA_nondict_some attrs (Value.vobj fields) v2 k ks rfl hf] at h
        rw [configGet_manager_nondict_some attrs (Value.vobj fields) v2 k ks dft rfl hf]
        exact ih v2 h
    | vstr str =>
      cases hf : attrs (Value.vstr str) k with
      | none =>
        rw [pathLookupA_nondict_none attrs (Value.vstr str) k ks rfl hf] at h
        cases h
      | some v2 =>
        rw [pathLookupA_nondict_some attrs (Value.vstr str) v2 k ks rfl hf] at h
        rw [configGet_manager_nondict_some attrs (Value.vstr str) v2 k ks dft rfl hf]
        exact ih v2 h
    | vint n =>
      cases hf : attrs (Value.vint n) k with
      | none =>
        rw [pathLookupA_nondict_none attrs (Value.vint n) k ks rfl hf] at h
        cases h
      | some v2 =>
        rw [pathLookupA_nondict_some attrs (Value.vint n) v2 k ks rfl hf] at h
        rw [configGet_manager_nondict_some attrs (Value.vint n) v2 k ks dft rfl hf]
        exact ih v2 h

theorem configGet_manager_default_self (attrs : Value → String → Option Value)
    (ks : List String) (dft : Value) (hd : dft.isDict = false)
    (ha : ∀ k, attrs dft k = none) : configGet_manager attrs dft ks dft = dft := by
  cases ks with
  | nil => cases dft <;> rfl
  | cons k ks => exact configGet_manager_nondict_none attrs dft k ks dft hd (ha k)

theorem configGet_manager_none (attrs : Value → String → Option Value)
    (ks : List String) (v dft : Value)
    (h : pathLookupA attrs v ks = none) (hd : dft.isDict = false)
    (ha : ∀ k, attrs dft k = none) : configGet_manager attrs v ks dft = dft := by
  induction ks generalizing v with
  | nil => simp [pathLookupA] at h
  | cons k ks ih =>
    cases v with
    | vdict d =>
      cases hf : assocFind d k with
      | none =>
        simp [configGet_manager, hf]
        exact configGet_manager_default_self attrs ks dft hd ha
      | some v2 =>
        simp [pathLookupA, hf] at h
        simp [configGet_manager, hf]
        exact ih v2 h
    | vobj fields =>
      cases hf : attrs (Value.vobj fields) k with
      | none => exact configGet_manager_nondict_none attrs (Value.vobj fields) k ks dft rfl hf
      | some v2 =>
        rw [pathLookupA_nondict_some attrs (Value.vobj fields) v2 k ks rfl hf] at h
        rw [configGet_manager_nondict_some attrs (Value.vobj fields) v2 k ks dft rfl hf]
        exact ih v2 h
    | vstr str =>
      cases hf : attrs (Value.vstr str) k with
      | none => exact configGet_manager_nondict_none attrs (Value.vstr str) k ks dft rfl hf
      | some v2 =>
        rw [pathLookupA_nondict_some attrs (Value.vstr str) v2 k ks rfl hf] at h
        rw [configGet_manager_nondict_some attrs (Value.vstr str) v2 k ks dft rfl hf]
        exact ih v2 h
    | vint n =>
      cases hf : attrs (Value.vint n) k with
      | none => exact configGet_manager_nondict_none attrs (Value.vint n) k ks dft rfl hf
      | some v2 =>
        rw [pathLookupA_nondict_some attrs (Value.vint n) v2 k ks rfl hf] at h
        rw [configGet_manager_nondict_some attrs (Value.vint n) v2 k ks dft rfl hf]
        exact ih v2 h

/-- C10 counterexample: two concrete failures of the claim's
always-the-default guarantee on a missing segment.  First, with an empty
configuration dictionary, key path `a.b` and the dictionary default
`{"b": 5}`, `Config.get` of `src/utils/config.py` returns `5` — a value
extracted from inside the default — rather than the supplied default.
Second, with configuration `{"a": "hello"}`, key path `a.title` and default
`0`, `ConfigManager.get` of `src/trading/utils/config_manager.py` reaches its
`hasattr` branch on the string — `hasattr("hello", "title")` is true — and
returns `getattr("hello", "title")`, the bound method `str.title` (its
stand-in value in the attribute table), rather than the supplied default. -/
theorem config_get_returns_nondefault :
    (configGet_utils (Value.vdict []) ["a", "b"] (Value.vdict [("b", Value.vint 5)]) =
        Value.vint 5 ∧
      Value.vint 5 ≠ Value.vdict [("b", Value.vint 5)]) ∧
    (configGet_manager pyAttrsEx (Value.vdict [("a", Value.vstr "hello")]) ["a", "title"]
        (Value.vint 0) = Value.vstr "<bound method str.title>" ∧
      Value.vstr "<bound method str.title>" ≠ Value.vint 0) := by
  refine ⟨⟨rfl, fun h => ?_⟩, ⟨rfl, fun h => ?_⟩⟩ <;> cases h

/-- C10 (amended): each configuration `get` is a total function that returns
the configured value whenever every path segment resolves; when resolution
fails, the try/except variant (`trading/utils/config.py`) always returns the
supplied default; `Config.get` (`utils/config.py`) returns the supplied
default provided the default is not itself a dictionary; and
`ConfigManager.get` (`trading/utils/config_manager.py`), whose
`hasattr`/`getattr` branch is tried on values of any type, returns the
supplied default provided the default is not a dictionary and has no
attribute bound to any key segment.  A default the traversal can enter — a
dictionary, or for the last variant any value with a matching attribute —
may be traversed into instead. -/
theorem config_get_total_default :
    (∀ (cfg : Value) (ks : List String) (dft : Value),
      (∀ w, pathLookupD cfg ks = some w → configGet_trading cfg ks dft = w) ∧
      (pathLookupD cfg ks = none → configGet_trading cfg ks dft = dft)) ∧
    (∀ (cfg : Value) (ks : List String) (dft : Value),
      (∀ w, pathLookupD cfg ks = some w → configGet_utils cfg ks dft = w) ∧
      (pathLookupD cfg ks = none → dft.isDict = false →
        configGet_utils cfg ks dft = dft)) ∧
    (∀ (attrs : Value → String → Option Value) (cfg : Value) (ks : List String)
        (dft : Value),
      (∀ w, pathLookupA attrs cfg ks = some w → configGet_manager attrs cfg ks dft = w) ∧
      (pathLookupA attrs cfg ks = none → dft.isDict = false →
        (∀ k, attrs dft k = none) → configGet_manager attrs cfg ks dft = dft)) := by
  refine ⟨fun cfg ks dft => ⟨fun w h => ?_, fun h => ?_⟩,
    fun cfg ks dft => ⟨fun w h => configGet_utils_ok ks cfg w dft h,
      fun h hd => configGet_utils_none ks cfg dft h hd⟩,
    fun attrs cfg ks dft => ⟨fun w h => configGet_manager_ok attrs ks cfg w dft h,
      fun h hd ha => configGet_manager_none attrs ks cfg dft h hd ha⟩⟩
  · unfold configGet_trading
    rw [pathLookupD_ok_trading ks cfg w h]
  · unfold configGet_trading
    rw [pathLookupD_err_trading ks cfg h]

/-- Witness for `config_get_total_default` at concrete configurations,
using the concrete attribute table for the third variant. -/
theorem config_get_total_default_witness :
    configGet_trading (Value.vdict [("a", Value.vint 7)]) ["a"] (Value.vint 0) = Value.vint 7 ∧
    configGet_trading (Value.vdict []) ["a", "b"] (Value.vdict [("b", Value.vint 5)]) =
      Value.vdict [("b", Value.vint 5)] ∧
    configGet_utils (Value.vdict [("a", Value.vint 7)]) ["a"] (Value.vint 0) = Value.vint 7 ∧
    configGet_utils (Value.vdict []) ["a", "b"] (Value.vint 0) = Value.vint 0 ∧
    configGet_manager pyAttrsEx (Value.vobj [("a", Value.vint 7)]) ["a"] (Value.vint 0) =
      Value.vint 7 ∧
    configGet_manager pyAttrsEx (Value.vdict []) ["a", "b"] (Value.vint 0) = Value.vint 0 :=
  ⟨(config_get_total_default.1 _ _ _).1 _ rfl,
   (config_get_total_default.1 _ _ _).2 rfl,
   (config_get_total_default.2.1 _ _ _).1 _ rfl,
   (config_get_total_default.2.1 _ _ _).2 rfl rfl,
   (config_get_total_default.2.2 pyAttrsEx _ _ _).1 _ rfl,
   (config_get_total_default.2.2 pyAttrsEx _ _ _).2 rfl rfl (fun k => rfl)⟩

theorem lookupStore_insert (st : Store) (k : Key) (s : PriceSeries) :
    lookupStore (insertStore st k s) k = some s := by
  simp [lookupStore, insertStore, List.find?]

theorem save_data_fst (st : Store) (f : Frame) (sym iv : String) :
    (save_data st f sym iv).1 = validateFrame f := by
  cases h : validateFrame f <;> simp [save_data, h]

theorem update_data_fst (st : Store) (f : Frame) (sym iv : String) :
    (update_data st f sym iv).1 = validateFrame f := by
  cases h : validateFrame f <;> simp [update_data, h]

theorem validateFrame_error_iff (f : Frame) :
    validateFrame f = .error () ↔
      (f.rows = [] ∨ (∃ c ∈ requiredColumns, c ∉ f.cols) ∨
        ∃ p ∈ f.rows, p.1.isTemporal = false) := by
  unfold validateFrame
  split_ifs with h1 h2 h3
  · simp only [true_iff]
    exact Or.inl (by simpa [List.isEmpty_iff] using h1)
  · simp only [true_iff]
    refine Or.inr (Or.inl ?_)
    simp only [List.any_eq_true, Bool.not_eq_true'] at h2
    simpa [List.elem_iff] using h2
  · simp only [true_iff]
    refine Or.inr (Or.inr ?_)
    simp only [Bool.not_eq_true', List.all_eq_false] at h3
    simpa using h3
  · simp only [List.isEmpty_iff] at h1
    simp only [List.any_eq_true, Bool.not_eq_true'] at h2
    push_neg at h2
    simp only [Bool.not_eq_true', Bool.not_eq_false] at h3
    rw [List.all_eq_true] at h3
    constructor
    · intro h; cases h
    · intro h
      rcases h with h | ⟨c, hc, hmem⟩ | ⟨p, hp, hnt⟩
      · exact absurd h h1
      · exact absurd (by simpa [List.elem_iff] using h2 c hc) hmem
      · exact absurd (h3 p hp) (by simp [hnt])

theorem validateFrame_ok (f : Frame) (hne : f.rows ≠ [])
    (hcols : ∀ c ∈ requiredColumns, c ∈ f.cols)
    (htemp : ∀ p ∈ f.rows, p.1.isTemporal = true) : validateFrame f = .ok () := by
  cases h : validateFrame f with
  | ok u => rfl
  | error u =>
    cases u
    rw [validateFrame_error_iff] at h
    rcases h with h | ⟨c, hc, hmem⟩ | ⟨p, hp, hnt⟩
    · exact absurd h hne
    · exact absurd (hcols c hc) hmem
    · exact absurd (htemp p hp) (by simp [hnt])

/-- C6: `save_data` fails with `ValidationError` if and only if the series is
empty, a required column is missing, or the index is not temporal; otherwise
it succeeds. -/
theorem save_data_validation_iff (st : Store) (f : Frame) (sym iv : String) :
    ((save_data st f sym iv).1 = .error () ↔
      (f.rows = [] ∨ (∃ c ∈ requiredColumns, c ∉ f.cols) ∨
        ∃ p ∈ f.rows, p.1.isTemporal = false)) ∧
    ((save_data st f sym iv).1 = .ok () ↔
      ¬(f.rows = [] ∨ (∃ c ∈ requiredColumns, c ∉ f.cols) ∨
        ∃ p ∈ f.rows, p.1.isTemporal = false)) := by
  rw [save_data_fst]
  constructor
  · exact validateFrame_error_iff f
  · rw [← validateFrame_error_iff f]
    cases h : validateFrame f with
    | ok u => cases u; simp
    | error u => cases u; simp

/-- C7: `get_data_gaps` fails with `ValidationError` whenever the interval is
not one of the recognized enumerated values, for every symbol, store and date
range. -/
theorem get_data_gaps_invalid_interval (st : Store) (sym iv : String) (s e : Nat)
    (h : iv ∉ ["1m", "5m", "15m", "1h", "1d"]) :
    get_data_gaps st sym iv s e = .error () := by
  simp only [List.mem_cons, List.not_mem_nil, or_false, not_or] at h
  obtain ⟨h1, h2, h3, h4, h5⟩ := h
  simp [get_data_gaps, intervalSeconds, h1, h2, h3, h4, h5]

/-- Witness for `get_data_gaps_invalid_interval`: the interval string
`invalid` is rejected. -/
theorem get_data_gaps_invalid_interval_witness :
    get_data_gaps [] "AAPL" "invalid" 0 10 = .error () :=
  get_data_gaps_invalid_interval [] "AAPL" "invalid" 0 10 (by decide)

/-- C9: a `save_data` or `update_data` call whose input series fails
validation leaves the durable state unchanged — validation happens before any
mutation. -/
theorem failed_write_leaves_state (st : Store) (f : Frame) (sym iv : String)
    (h : validateFrame f = .error ()) :
    (save_data st f sym iv).2 = st ∧ (update_data st f sym iv).2 = st := by
  constructor <;> simp [save_data, update_data, h]

/-- Witness for `failed_write_leaves_state`: an empty frame fails validation
and a save or update with it leaves a one-key store intact. -/
theorem failed_write_leaves_state_witness :
    (save_data [(("AAPL", "1d"), [(0, ⟨1, 2, 3, 4, 5⟩)])] ⟨requiredColumns, []⟩ "AAPL" "1d").2 =
        [(("AAPL", "1d"), [(0, ⟨1, 2, 3, 4, 5⟩)])] ∧
    (update_data [(("AAPL", "1d"), [(0, ⟨1, 2, 3, 4, 5⟩)])] ⟨requiredColumns, []⟩ "AAPL" "1d").2 =
        [(("AAPL", "1d"), [(0, ⟨1, 2, 3, 4, 5⟩)])] :=
  failed_write_leaves_state _ ⟨requiredColumns, []⟩ "AAPL" "1d" rfl

/-- C1: for every non-empty series with exactly the required columns and a
chronological unique-timestamp index, saving and then loading returns the
series, regardless of any prior contents of the slot. -/
theorem save_load_roundtrip (st : Store) (f : Frame) (sym iv : String)
    (hne : f.rows ≠ [])
    (hcols : ∀ c, c ∈ f.cols ↔ c ∈ requiredColumns)
    (htemp : ∀ p ∈ f.rows, p.1.isTemporal = true)
    (hchron : List.Pairwise (fun a b => a.1 < b.1) f.toSeries) :
    load_data (save_data st f sym iv).2 sym iv = some f.toSeries := by
  have hok : validateFrame f = .ok () :=
    validateFrame_ok f hne (fun c hc => (hcols c).mpr hc) htemp
  simp [save_data, hok, load_data, lookupStore_insert]

/-- Witness for `save_load_roundtrip`: a two-bar daily frame round-trips
through a store that already holds other data for the same key. -/
theorem save_load_roundtrip_witness :
    load_data (save_data [(("AAPL", "1d"), [(7, ⟨9, 9, 9, 9, 9⟩)])]
        ⟨requiredColumns, [(.ts 0, ⟨1, 2, 3, 4, 5⟩), (.ts 86400, ⟨6, 7, 8, 9, 10⟩)]⟩
        "AAPL" "1d").2 "AAPL" "1d" =
      some [(0, ⟨1, 2, 3, 4, 5⟩), (86400, ⟨6, 7, 8, 9, 10⟩)] :=
  save_load_roundtrip _ _ "AAPL" "1d" (by decide) (fun c => Iff.rfl)
    (by decide) (by decide)

/-- The result of folding `max` over a list from an initial value is the
initial value or a member, bounds the initial value and every member. -/
theorem foldl_max_spec (l : List Nat) (a : Nat) :
    (l.foldl max a = a ∨ l.foldl max a ∈ l) ∧ a ≤ l.foldl max a ∧
      ∀ t ∈ l, t ≤ l.foldl max a := by
  induction l generalizing a with
  | nil => simp
  | cons b bs ih =>
    obtain ⟨hmem, hle, hall⟩ := ih (max a b)
    refine ⟨?_, ?_, ?_⟩
    · rcases hmem with h | h
      · rcases Nat.le_total a b with hab | hba
        · right
          rw [List.foldl_cons, h, Nat.max_eq_right hab]
          exact List.mem_cons_self b bs
        · left
          rw [List.foldl_cons, h, Nat.max_eq_left hba]
      · right; right; exact h
    · exact le_trans (Nat.le_max_left a b) hle
    · intro t ht
      rcases List.mem_cons.mp ht with h | h
      · subst h; exact le_trans (Nat.le_max_right a t) hle
      · exact hall t h

/-- C8: `get_latest_data` returns the maximum timestamp of the durable series
when the key has data, and absent — not an error — when it has none. -/
theorem get_latest_data_spec (st : Store) (sym iv : String) :
    (lookupStore st (sym, iv) = none → get_latest_data st sym iv = none) ∧
    (∀ p ps, lookupStore st (sym, iv) = some (p :: ps) →
      ∃ m, get_latest_data st sym iv = some m ∧ m ∈ (p :: ps).map Prod.fst ∧
        ∀ t ∈ (p :: ps).map Prod.fst, t ≤ m) := by
  constructor
  · intro h
    simp [get_latest_data, h]
  · intro p ps h
    refine ⟨ps.foldl (fun m q => max m q.1) p.1, ?_, ?_, ?_⟩
    · simp [get_latest_data, h]
    · have := (foldl_max_spec (ps.map Prod.fst) p.1).1
      rw [List.foldl_map] at this
      rcases this with h2 | h2
      · rw [h2]; simp
      · simp only [List.map_cons, List.mem_cons]
        exact Or.inr h2
    · intro t ht
      have hspec := foldl_max_spec (ps.map Prod.fst) p.1
      rw [List.foldl_map] at hspec
      rcases List.mem_cons.mp ht with h2 | h2
      · subst h2; exact hspec.2.1
      · exact hspec.2.2 t h2

/-- Witness for `get_latest_data_spec`: on a concrete two-key store the
latest timestamp is returned for a present key and absent for a missing
key. -/
theorem get_latest_data_spec_witness :
    get_latest_data [(("NONEXISTENT", "1d"), [])] "MSFT" "1d" = none ∧
    ∃ m, get_latest_data [(("AAPL", "1d"), [(0, ⟨1, 1, 1, 1, 1⟩), (86400, ⟨2, 2, 2, 2, 2⟩)])]
        "AAPL" "1d" = some m ∧
      m ∈ [(0, (⟨1, 1, 1, 1, 1⟩ : Row)), (86400, ⟨2, 2, 2, 2, 2⟩)].map Prod.fst ∧
      ∀ t ∈ [(0, (⟨1, 1, 1, 1, 1⟩ : Row)), (86400, ⟨2, 2, 2, 2, 2⟩)].map Prod.fst, t ≤ m :=
  ⟨(get_latest_data_spec [(("NONEXISTENT", "1d"), [])] "MSFT" "1d").1 rfl,
   (get_latest_data_spec _ "AAPL" "1d").2 (0, ⟨1, 1, 1, 1, 1⟩) [(86400, ⟨2, 2, 2, 2, 2⟩)] rfl⟩

theorem lookupCache_cache_data (c : Cache) (s : PriceSeries) (sym iv : String)
    (t0 ttl : Nat) :
    lookupCache (cache_data c s sym iv t0 ttl) (sym, iv) = some (s, t0, ttl) := by
  simp [lookupCache, cache_data, List.find?]

theorem lookupCache_removeCache (c : Cache) (k : Key) :
    lookupCache (removeCache c k) k = none := by
  simp only [lookupCache, Option.map_eq_none']
  rw [List.find?_eq_none]
  intro p hp
  have := List.of_mem_filter hp
  simpa using this

/-- C5: after caching a snapshot with a positive ttl, a read returns the
snapshot exactly while `now - insertion_time < ttl`; once `ttl ≤ now -
insertion_time` the read returns absent and the stale entry is removed, so an
expired entry is never returned. -/
theorem cache_ttl_spec (c : Cache) (s : PriceSeries) (sym iv : String)
    (t0 T now : Nat) (hT : 0 < T) :
    (now - t0 < T → get_cached_data (cache_data c s sym iv t0 T) sym iv now =
      (some s, cache_data c s sym iv t0 T)) ∧
    (T ≤ now - t0 →
      (get_cached_data (cache_data c s sym iv t0 T) sym iv now).1 = none ∧
      lookupCache (get_cached_data (cache_data c s sym iv t0 T) sym iv now).2
        (sym, iv) = none) := by
  constructor
  · intro hfresh
    simp [get_cached_data, lookupCache_cache_data, hfresh]
  · intro hstale
    have hnot : ¬(now - t0 < T) := not_lt.mpr hstale
    constructor
    · simp [get_cached_data, lookupCache_cache_data, hnot]
    · simp only [get_cached_data, lookupCache_cache_data, if_neg hnot]
      exact lookupCache_removeCache _ _

/-- Witness for `cache_ttl_spec`: a snapshot cached at time 100 with ttl 5 is
returned at time 104 and gone at time 105. -/
theorem cache_ttl_spec_witness :
    (get_cached_data (cache_data [] [(0, ⟨1, 1, 1, 1, 1⟩)] "AAPL" "1d" 100 5) "AAPL" "1d" 104 =
      (some [(0, ⟨1, 1, 1, 1, 1⟩)], cache_data [] [(0, ⟨1, 1, 1, 1, 1⟩)] "AAPL" "1d" 100 5)) ∧
    ((get_cached_data (cache_data [] [(0, ⟨1, 1, 1, 1, 1⟩)] "AAPL" "1d" 100 5) "AAPL" "1d" 105).1 =
      none ∧
     lookupCache (get_cached_data (cache_data [] [(0, ⟨1, 1, 1, 1, 1⟩)] "AAPL" "1d" 100 5)
        "AAPL" "1d" 105).2 ("AAPL", "1d") = none) :=
  ⟨(cache_ttl_spec [] [(0, ⟨1, 1, 1, 1, 1⟩)] "AAPL" "1d" 100 5 104 (by decide)).1 (by decide),
   (cache_ttl_spec [] [(0, ⟨1, 1, 1, 1, 1⟩)] "AAPL" "1d" 100 5 105 (by decide)).2 (by decide)⟩

theorem sortByTs_perm (l : PriceSeries) : List.Perm (sortByTs l) l :=
  List.perm_insertionSort tsLE l

theorem sortByTs_sorted (l : PriceSeries) : List.Pairwise tsLE (sortByTs l) :=
  List.sorted_insertionSort tsLE l

theorem pairwise_lt_of_sorted_nodup (l : PriceSeries)
    (hs : List.Pairwise tsLE l) (hn : (l.map Prod.fst).Nodup) :
    List.Pairwise (fun a b => a.1 < b.1) l := by
  have hne : l.Pairwise (fun a b => a.1 ≠ b.1) := List.pairwise_map.mp hn
  exact (hs.and hne).imp fun h => lt_of_le_of_ne h.1 h.2

theorem sortByTs_pairwise_lt (l : PriceSeries) (hn : (l.map Prod.fst).Nodup) :
    List.Pairwise (fun a b => a.1 < b.1) (sortByTs l) :=
  pairwise_lt_of_sorted_nodup _ (sortByTs_sorted l)
    (((sortByTs_perm l).map Prod.fst).nodup_iff.mpr hn)

theorem nodup_fst_of_pairwise_lt (l : PriceSeries)
    (h : List.Pairwise (fun a b => a.1 < b.1) l) : (l.map Prod.fst).Nodup :=
  List.pairwise_map.mpr (h.imp fun hab => Nat.ne_of_lt hab)

/-- C2: saving S1 and then updating with S2, with disjoint timestamp ranges,
makes a load return exactly the chronologically sorted concatenation of S1
and S2, and that result is strictly chronological. -/
theorem update_disjoint_concat (st : Store) (f1 f2 : Frame) (sym iv : String)
    (h1ne : f1.rows ≠ []) (h1cols : ∀ c ∈ requiredColumns, c ∈ f1.cols)
    (h1temp : ∀ p ∈ f1.rows, p.1.isTemporal = true)
    (h1chron : List.Pairwise (fun a b => a.1 < b.1) f1.toSeries)
    (h2ne : f2.rows ≠ []) (h2cols : ∀ c ∈ requiredColumns, c ∈ f2.cols)
    (h2temp : ∀ p ∈ f2.rows, p.1.isTemporal = true)
    (h2chron : List.Pairwise (fun a b => a.1 < b.1) f2.toSeries)
    (hdisj : (∀ t1 ∈ f1.toSeries.map Prod.fst, ∀ t2 ∈ f2.toSeries.map Prod.fst, t1 < t2) ∨
      (∀ t2 ∈ f2.toSeries.map Prod.fst, ∀ t1 ∈ f1.toSeries.map Prod.fst, t2 < t1)) :
    load_data (update_data (save_data st f1 sym iv).2 f2 sym iv).2 sym iv =
      some (sortByTs (f1.toSeries ++ f2.toSeries)) ∧
    List.Pairwise (fun a b => a.1 < b.1) (sortByTs (f1.toSeries ++ f2.toSeries)) := by
  have hne : ∀ t1 ∈ f1.toSeries.map Prod.fst, ∀ t2 ∈ f2.toSeries.map Prod.fst, t1 ≠ t2 := by
    rcases hdisj with h | h
    · exact fun t1 ht1 t2 ht2 => Nat.ne_of_lt (h t1 ht1 t2 ht2)
    · exact fun t1 ht1 t2 ht2 => Nat.ne_of_gt (h t2 ht2 t1 ht1)
  have hok1 := validateFrame_ok f1 h1ne h1cols h1temp
  have hok2 := validateFrame_ok f2 h2ne h2cols h2temp
  have hfilter :
      (f1.toSeries.filter fun p => !(f2.toSeries.any fun q => q.1 = p.1)) = f1.toSeries := by
    apply List.filter_eq_self.mpr
    intro p hp
    simp only [Bool.not_eq_true', List.any_eq_false, decide_eq_true_eq]
    intro q hq
    exact fun hqp =>
      hne p.1 (List.mem_map_of_mem Prod.fst hp) q.1 (List.mem_map_of_mem Prod.fst hq)
        hqp.symm
  have hmergeEq : mergeSeries f1.toSeries f2.toSeries = sortByTs (f1.toSeries ++ f2.toSeries) := by
    unfold mergeSeries
    rw [hfilter]
  constructor
  · simp only [save_data, hok1, update_data, hok2, load_data, lookupStore_insert,
      Option.getD_some, hmergeEq]
  · apply sortByTs_pairwise_lt
    rw [List.map_append]
    exact List.Nodup.append (nodup_fst_of_pairwise_lt _ h1chron)
      (nodup_fst_of_pairwise_lt _ h2chron)
      (fun t ht1 ht2 => hne t ht1 t ht2 rfl)

/-- Witness for `update_disjoint_concat`: two daily two-bar frames on
disjoint later/earlier ranges. -/
theorem update_disjoint_concat_witness :
    load_data (update_data (save_data []
        (⟨requiredColumns, [(.ts 0, ⟨1, 1, 1, 1, 1⟩), (.ts 86400, ⟨2, 2, 2, 2, 2⟩)]⟩ : Frame)
        "AAPL" "1d").2
        (⟨requiredColumns, [(.ts 172800, ⟨3, 3, 3, 3, 3⟩), (.ts 259200, ⟨4, 4, 4, 4, 4⟩)]⟩ : Frame)
        "AAPL" "1d").2 "AAPL" "1d" =
      some [(0, ⟨1, 1, 1, 1, 1⟩), (86400, ⟨2, 2, 2, 2, 2⟩),
        (172800, ⟨3, 3, 3, 3, 3⟩), (259200, ⟨4, 4, 4, 4, 4⟩)] ∧
    List.Pairwise (fun a b => a.1 < b.1)
      (sortByTs ((⟨requiredColumns,
          [(.ts 0, ⟨1, 1, 1, 1, 1⟩), (.ts 86400, ⟨2, 2, 2, 2, 2⟩)]⟩ : Frame).toSeries ++
        (⟨requiredColumns,
          [(.ts 172800, ⟨3, 3, 3, 3, 3⟩), (.ts 259200, ⟨4, 4, 4, 4, 4⟩)]⟩ : Frame).toSeries)) :=
  update_disjoint_concat [] _ _ "AAPL" "1d" (by decide) (by decide) (by decide) (by decide)
    (by decide) (by decide) (by decide) (by decide) (Or.inl (by decide))

/-- C3: updating a stored chronological series with a valid overlapping
series persists a strictly chronological, duplicate-free series that at each
shared timestamp holds the new series' record. -/
theorem update_overlap_last_write_wins (st : Store) (old : PriceSeries) (f : Frame)
    (sym iv : String)
    (hold : lookupStore st (sym, iv) = some old)
    (holdchron : List.Pairwise (fun a b => a.1 < b.1) old)
    (hne : f.rows ≠ []) (hcols : ∀ c ∈ requiredColumns, c ∈ f.cols)
    (htemp : ∀ p ∈ f.rows, p.1.isTemporal = true)
    (hchron : List.Pairwise (fun a b => a.1 < b.1) f.toSeries) :
    load_data (update_data st f sym iv).2 sym iv =
      some (mergeSeries old f.toSeries) ∧
    List.Pairwise (fun a b => a.1 < b.1) (mergeSeries old f.toSeries) ∧
    ((mergeSeries old f.toSeries).map Prod.fst).Nodup ∧
    ∀ t r, t ∈ f.toSeries.map Prod.fst → t ∈ old.map Prod.fst →
      ((t, r) ∈ mergeSeries old f.toSeries ↔ (t, r) ∈ f.toSeries) := by
  have hok := validateFrame_ok f hne hcols htemp
  have hload : load_data (update_data st f sym iv).2 sym iv =
      some (mergeSeries old f.toSeries) := by
    simp only [update_data, hok, load_data, hold, Option.getD_some]
    exact lookupStore_insert _ _ _
  have hfilterdisj : ∀ p ∈ (old.filter fun p => !(f.toSeries.any fun q => q.1 = p.1)),
      p.1 ∉ f.toSeries.map Prod.fst := by
    intro p hp hmem
    have hpred := List.of_mem_filter hp
    simp only [Bool.not_eq_true', List.any_eq_false, decide_eq_true_eq] at hpred
    obtain ⟨q, hq, hq1⟩ := List.mem_map.mp hmem
    exact hpred q hq hq1
  have hnodup :
      (((old.filter fun p => !(f.toSeries.any fun q => q.1 = p.1)) ++ f.toSeries).map
        Prod.fst).Nodup := by
    rw [List.map_append]
    refine List.Nodup.append ?_ (nodup_fst_of_pairwise_lt _ hchron) ?_
    · exact List.Nodup.sublist (List.Sublist.map Prod.fst (List.filter_sublist old))
        (nodup_fst_of_pairwise_lt _ holdchron)
    · intro t ht1 ht2
      obtain ⟨p, hp, hp1⟩ := List.mem_map.mp ht1
      exact hfilterdisj p hp (hp1 ▸ ht2)
  have hpw : List.Pairwise (fun a b => a.1 < b.1) (mergeSeries old f.toSeries) :=
    sortByTs_pairwise_lt _ hnodup
  refine ⟨hload, hpw, nodup_fst_of_pairwise_lt _ hpw, ?_⟩
  intro t r htnew htold
  have hmem : (t, r) ∈ mergeSeries old f.toSeries ↔
      (t, r) ∈ ((old.filter fun p => !(f.toSeries.any fun q => q.1 = p.1)) ++ f.toSeries) :=
    (sortByTs_perm _).mem_iff
  rw [hmem, List.mem_append]
  constructor
  · intro h
    rcases h with h | h
    · exact absurd htnew (hfilterdisj (t, r) h)
    · exact h
  · exact fun h => Or.inr h

/-- Witness for `update_overlap_last_write_wins`: stored bars at 10 and 20,
update with new bars at 20 and 30; the persisted series holds the new record
at the shared timestamp 20. -/
theorem update_overlap_last_write_wins_witness :
    load_data (update_data [(("AAPL", "1d"), [(10, ⟨1, 1, 1, 1, 1⟩), (20, ⟨2, 2, 2, 2, 2⟩)])]
        (⟨requiredColumns, [(.ts 20, ⟨9, 9, 9, 9, 9⟩), (.ts 30, ⟨3, 3, 3, 3, 3⟩)]⟩ : Frame)
        "AAPL" "1d").2 "AAPL" "1d" =
      some (mergeSeries [(10, ⟨1, 1, 1, 1, 1⟩), (20, ⟨2, 2, 2, 2, 2⟩)]
        (⟨requiredColumns, [(.ts 20, ⟨9, 9, 9, 9, 9⟩), (.ts 30, ⟨3, 3, 3, 3, 3⟩)]⟩ : Frame).toSeries) ∧
    List.Pairwise (fun a b => a.1 < b.1)
      (mergeSeries [(10, ⟨1, 1, 1, 1, 1⟩), (20, ⟨2, 2, 2, 2, 2⟩)]
        (⟨requiredColumns, [(.ts 20, ⟨9, 9, 9, 9, 9⟩), (.ts 30, ⟨3, 3, 3, 3, 3⟩)]⟩ : Frame).toSeries) ∧
    ((mergeSeries [(10, ⟨1, 1, 1, 1, 1⟩), (20, ⟨2, 2, 2, 2, 2⟩)]
        (⟨requiredColumns, [(.ts 20, ⟨9, 9, 9, 9, 9⟩), (.ts 30, ⟨3, 3, 3, 3, 3⟩)]⟩ : Frame).toSeries).map
      Prod.fst).Nodup ∧
    ∀ t r, t ∈ ((⟨requiredColumns,
          [(.ts 20, ⟨9, 9, 9, 9, 9⟩), (.ts 30, ⟨3, 3, 3, 3, 3⟩)]⟩ : Frame).toSeries).map Prod.fst →
      t ∈ ([(10, (⟨1, 1, 1, 1, 1⟩ : Row)), (20, ⟨2, 2, 2, 2, 2⟩)]).map Prod.fst →
      ((t, r) ∈ mergeSeries [(10, ⟨1, 1, 1, 1, 1⟩), (20, ⟨2, 2, 2, 2, 2⟩)]
          (⟨requiredColumns, [(.ts 20, ⟨9, 9, 9, 9, 9⟩), (.ts 30, ⟨3, 3, 3, 3, 3⟩)]⟩ : Frame).toSeries ↔
        (t, r) ∈ (⟨requiredColumns,
          [(.ts 20, ⟨9, 9, 9, 9, 9⟩), (.ts 30, ⟨3, 3, 3, 3, 3⟩)]⟩ : Frame).toSeries) :=
  update_overlap_last_write_wins _ _ _ "AAPL" "1d" rfl (by decide) (by decide) (by decide)
    (by decide) (by decide)

theorem gapRuns_eq_nil_iff (step : Nat) (l : List Nat) :
    gapRuns step l = [] ↔ l = [] := by
  cases l with
  | nil => simp [gapRuns]
  | cons t ts =>
    simp only [gapRuns]
    constructor
    · intro h
      exfalso
      cases hg : gapRuns step ts with
      | nil => rw [hg] at h; simp [mergeGap] at h
      | cons g rest =>
        rw [hg] at h
        obtain ⟨a, b⟩ := g
        simp only [mergeGap] at h
        split_ifs at h <;> simp at h
    · intro h; cases h

theorem gapRuns_endpoints (step : Nat) (l : List Nat) :
    ∀ g ∈ gapRuns step l, g.1 ∈ l ∧ g.2 ∈ l ∧ g.1 ≤ g.2 := by
  induction l with
  | nil => simp [gapRuns]
  | cons t ts ih =>
    intro g hg
    simp only [gapRuns] at hg
    cases hruns : gapRuns step ts with
    | nil =>
      rw [hruns] at hg
      simp only [mergeGap, List.mem_singleton] at hg
      subst hg
      exact ⟨List.mem_cons_self t ts, List.mem_cons_self t ts, le_refl t⟩
    | cons hd rest =>
      rw [hruns] at hg
      obtain ⟨a, b⟩ := hd
      have hhd := ih (a, b) (hruns ▸ List.mem_cons_self _ _)
      simp only [mergeGap] at hg
      split_ifs at hg with hstep
      · rcases List.mem_cons.mp hg with hg | hg
        · subst hg
          refine ⟨List.mem_cons_self t ts, List.mem_cons_of_mem t hhd.2.1, ?_⟩
          calc t ≤ t + step := Nat.le_add_right t step
            _ = a := hstep
            _ ≤ b := hhd.2.2
        · have := ih g (hruns ▸ List.mem_cons_of_mem _ hg)
          exact ⟨List.mem_cons_of_mem t this.1, List.mem_cons_of_mem t this.2.1, this.2.2⟩
      · rcases List.mem_cons.mp hg with hg | hg
        · subst hg
          exact ⟨List.mem_cons_self t ts, List.mem_cons_self t ts, le_refl t⟩
        · have := ih g (hruns ▸ hg)
          exact ⟨List.mem_cons_of_mem t this.1, List.mem_cons_of_mem t this.2.1, this.2.2⟩

theorem gapRuns_cover (step : Nat) (l : List Nat) :
    ∀ x ∈ l, ∃ g ∈ gapRuns step l, g.1 ≤ x ∧ x ≤ g.2 := by
  induction l with
  | nil => simp
  | cons t ts ih =>
    intro x hx
    simp only [gapRuns]
    cases hruns : gapRuns step ts with
    | nil =>
      have hts : ts = [] := (gapRuns_eq_nil_iff step ts).mp hruns
      subst hts
      simp only [List.mem_singleton] at hx
      subst hx
      exact ⟨(x, x), by simp [mergeGap], le_refl x, le_refl x⟩
    | cons hd rest =>
      obtain ⟨a, b⟩ := hd
      rcases List.mem_cons.mp hx with hx | hx
      · subst hx
        simp only [mergeGap]
        split_ifs with hstep
        · exact ⟨(x, b), List.mem_cons_self _ _, le_refl x,
            le_trans (le_trans (Nat.le_add_right x step) (le_of_eq hstep))
              (gapRuns_endpoints step ts (a, b) (hruns ▸ List.mem_cons_self _ _)).2.2⟩
        · exact ⟨(x, x), List.mem_cons_self _ _, le_refl x, le_refl x⟩
      · obtain ⟨g, hgmem, hg1, hg2⟩ := ih x hx
        rw [hruns] at hgmem
        simp only [mergeGap]
        split_ifs with hstep
        · rcases List.mem_cons.mp hgmem with hgm | hgm
          · refine ⟨(t, b), List.mem_cons_self _ _, ?_, ?_⟩
            · calc t ≤ t + step := Nat.le_add_right t step
                _ = a := hstep
                _ = g.1 := by rw [hgm]
                _ ≤ x := hg1
            · calc x ≤ g.2 := hg2
                _ = b := by rw [hgm]
          · exact ⟨g, List.mem_cons_of_mem _ hgm, hg1, hg2⟩
        · rcases List.mem_cons.mp hgmem with hgm | hgm
          · exact ⟨g, hgm ▸ List.mem_cons_of_mem _ (List.mem_cons_self _ _), hg1, hg2⟩
          · exact ⟨g, List.mem_cons_of_mem _ (List.mem_cons_of_mem _ hgm), hg1, hg2⟩

theorem grid_step_le (s step t x : Nat)
    (ht : s ≤ t ∧ step ∣ (t - s)) (hx : s ≤ x ∧ step ∣ (x - s))
    (hlt : t < x) : t + step ≤ x := by
  have hdvd : step ∣ (x - t) := by
    have h := Nat.dvd_sub' hx.2 ht.2
    have heq : x - s - (t - s) = x - t := by omega
    rwa [heq] at h
  have hpos : 0 < x - t := by omega
  have := Nat.le_of_dvd hpos hdvd
  omega

theorem gapRuns_head_start (step t : Nat) (ts : List Nat) :
    ∃ b rest, gapRuns step (t :: ts) = (t, b) :: rest := by
  simp only [gapRuns]
  cases gapRuns step ts with
  | nil => exact ⟨t, [], rfl⟩
  | cons hd rest =>
    obtain ⟨a, b⟩ := hd
    simp only [mergeGap]
    split_ifs
    · exact ⟨b, rest, rfl⟩
    · exact ⟨t, (a, b) :: rest, rfl⟩

theorem gapRuns_sep (s step : Nat) (l : List Nat) (hstep : 0 < step)
    (hchain : List.Pairwise (· < ·) l)
    (hgrid : ∀ x ∈ l, s ≤ x ∧ step ∣ (x - s)) :
    List.Pairwise (fun g g2 => g.2 + step < g2.1) (gapRuns step l) := by
  induction l with
  | nil => simp [gapRuns]
  | cons t ts ih =>
    have hchain' := List.Pairwise.of_cons hchain
    have hgrid' : ∀ x ∈ ts, s ≤ x ∧ step ∣ (x - s) :=
      fun x hx => hgrid x (List.mem_cons_of_mem t hx)
    have hlt : ∀ x ∈ ts, t < x := fun x hx => List.rel_of_pairwise_cons hchain hx
    have ihp := ih hchain' hgrid'
    simp only [gapRuns]
    cases hruns : gapRuns step ts with
    | nil => simp [mergeGap]
    | cons hd rest =>
      obtain ⟨a, b⟩ := hd
      rw [hruns] at ihp
      have hends := gapRuns_endpoints step ts (a, b) (hruns ▸ List.mem_cons_self _ _)
      have hta : t < a := hlt a hends.1
      simp only [mergeGap]
      split_ifs with hmerge
      · exact List.Pairwise.cons
          (fun g hg => List.rel_of_pairwise_cons ihp hg) (List.Pairwise.of_cons ihp)
      · have htsa : t + step ≤ a :=
          grid_step_le s step t a (hgrid t (List.mem_cons_self t ts)) (hgrid' a hends.1) hta
        have htsa' : t + step < a := lt_of_le_of_ne htsa hmerge
        refine List.Pairwise.cons ?_ ihp
        intro g hg
        rcases List.mem_cons.mp hg with hgm | hgm
        · rw [hgm]
          exact htsa'
        · have hab : b + step < g.1 := List.rel_of_pairwise_cons ihp hgm
          have : a ≤ b := hends.2.2
          omega

theorem gapRuns_solid (s step : Nat) (l : List Nat)
    (hchain : List.Pairwise (· < ·) l)
    (hgrid : ∀ x ∈ l, s ≤ x ∧ step ∣ (x - s)) :
    ∀ g ∈ gapRuns step l, ∀ x, s ≤ x → step ∣ (x - s) →
      g.1 ≤ x → x ≤ g.2 → x ∈ l := by
  induction l with
  | nil => simp [gapRuns]
  | cons t ts ih =>
    have hchain' := List.Pairwise.of_cons hchain
    have hgrid' : ∀ y ∈ ts, s ≤ y ∧ step ∣ (y - s) :=
      fun y hy => hgrid y (List.mem_cons_of_mem t hy)
    intro g hg x hxs hxd hg1 hg2
    simp only [gapRuns] at hg
    cases hruns : gapRuns step ts with
    | nil =>
      rw [hruns] at hg
      simp only [mergeGap, List.mem_singleton] at hg
      subst hg
      have : x = t := le_antisymm hg2 hg1
      subst this
      exact List.mem_cons_self x ts
    | cons hd rest =>
      obtain ⟨a, b⟩ := hd
      rw [hruns] at hg
      simp only [mergeGap] at hg
      split_ifs at hg with hmerge
      · rcases List.mem_cons.mp hg with hgm | hgm
        · subst hgm
          simp only at hg1 hg2
          rcases Nat.lt_or_ge t x with htx | htx
          · have hxa : t + step ≤ x :=
              grid_step_le s step t x (hgrid t (List.mem_cons_self t ts)) ⟨hxs, hxd⟩ htx
            have : x ∈ ts :=
              ih hchain' hgrid' (a, b) (hruns ▸ List.mem_cons_self _ _) x hxs hxd
                (by omega) hg2
            exact List.mem_cons_of_mem t this
          · have : x = t := le_antisymm htx hg1
            subst this
            exact List.mem_cons_self x ts
        · exact List.mem_cons_of_mem t
            (ih hchain' hgrid' g (hruns ▸ List.mem_cons_of_mem _ hgm) x hxs hxd hg1 hg2)
      · rcases List.mem_cons.mp hg with hgm | hgm
        · subst hgm
          simp only at hg1 hg2
          have : x = t := le_antisymm hg2 hg1
          subst this
          exact List.mem_cons_self x ts
        · exact List.mem_cons_of_mem t
            (ih hchain' hgrid' g (hruns ▸ hgm) x hxs hxd hg1 hg2)

theorem expectedTimestamps_pairwise (step s e : Nat) (hstep : 0 < step) :
    List.Pairwise (· < ·) (expectedTimestamps step s e) := by
  unfold expectedTimestamps
  split_ifs
  · rw [List.pairwise_map]
    exact (List.pairwise_lt_range _).imp fun h =>
      Nat.add_lt_add_left ((Nat.mul_lt_mul_right hstep).mpr h) s
  · simp

theorem expectedTimestamps_grid (step s e : Nat) :
    ∀ x ∈ expectedTimestamps step s e, s ≤ x ∧ step ∣ (x - s) := by
  unfold expectedTimestamps
  split_ifs
  · intro x hx
    obtain ⟨i, _, rfl⟩ := List.mem_map.mp hx
    refine ⟨Nat.le_add_right s (i * step), ?_⟩
    rw [Nat.add_sub_cancel_left]
    exact ⟨i, Nat.mul_comm i step⟩
  · simp

theorem missingOf_pairwise (step s e : Nat) (ser : PriceSeries) (hstep : 0 < step) :
    List.Pairwise (· < ·) (missingOf step s e ser) :=
  (expectedTimestamps_pairwise step s e hstep).sublist (List.filter_sublist _)

theorem missingOf_grid (step s e : Nat) (ser : PriceSeries) :
    ∀ x ∈ missingOf step s e ser, s ≤ x ∧ step ∣ (x - s) :=
  fun x hx => expectedTimestamps_grid step s e x (List.mem_of_mem_filter hx)

theorem intervalSeconds_pos (iv : String) (step : Nat)
    (h : intervalSeconds iv = some step) : 0 < step := by
  unfold intervalSeconds at h
  split_ifs at h <;> simp only [Option.some.injEq, reduceCtorEq] at h <;> omega

/-- C4: with a recognized interval, `get_data_gaps` returns the single gap
`(start, end)` when no durable data exists for the key; otherwise it returns
the maximal contiguous runs of missing expected timestamps in chronological
order: every returned gap's endpoints are missing expected timestamps, an
expected timestamp lies inside some gap exactly when it is missing (so full
coverage yields no gaps), and consecutive gaps are separated by more than one
step (each run is maximal). -/
theorem get_data_gaps_spec (st : Store) (sym iv : String) (s e step : Nat)
    (hiv : intervalSeconds iv = some step) :
    (lookupStore st (sym, iv) = none → get_data_gaps st sym iv s e = .ok [(s, e)]) ∧
    (∀ ser, lookupStore st (sym, iv) = some ser →
      get_data_gaps st sym iv s e = .ok (gapRuns step (missingOf step s e ser)) ∧
      (gapRuns step (missingOf step s e ser) = [] ↔ missingOf step s e ser = []) ∧
      (∀ g ∈ gapRuns step (missingOf step s e ser),
        g.1 ∈ missingOf step s e ser ∧ g.2 ∈ missingOf step s e ser ∧ g.1 ≤ g.2) ∧
      (∀ t ∈ expectedTimestamps step s e,
        ((∃ g ∈ gapRuns step (missingOf step s e ser), g.1 ≤ t ∧ t ≤ g.2) ↔
          t ∈ missingOf step s e ser)) ∧
      List.Pairwise (fun g g2 => g.2 + step < g2.1)
        (gapRuns step (missingOf step s e ser))) := by
  have hstep : 0 < step := intervalSeconds_pos iv step hiv
  constructor
  · intro h
    simp [get_data_gaps, hiv, h]
  · intro ser hser
    have hpw := missingOf_pairwise step s e ser hstep
    have hgrid := missingOf_grid step s e ser
    refine ⟨by simp [get_data_gaps, hiv, hser], ?_, gapRuns_endpoints step _, ?_, ?_⟩
    · constructor
      · exact fun h => (gapRuns_eq_nil_iff step _).mp h
      · intro h
        rw [h]
        rfl
    · intro t ht
      constructor
      · rintro ⟨g, hg, hg1, hg2⟩
        have hgr := expectedTimestamps_grid step s e t ht
        exact gapRuns_solid s step _ hpw hgrid g hg t hgr.1 hgr.2 hg1 hg2
      · intro h
        exact gapRuns_cover step _ t h
    · exact gapRuns_sep s step _ hstep hpw hgrid

/-- Witness for `get_data_gaps_spec`: a missing key yields the whole range as
one gap; a daily series over days 0–9 with days 2–3 absent yields the single
gap (day 2, day 3). -/
theorem get_data_gaps_spec_witness :
    get_data_gaps [] "AAPL" "1d" 0 777600 = .ok [(0, 777600)] ∧
    get_data_gaps
        [(("AAPL", "1d"),
          [0, 86400, 345600, 432000, 518400, 604800, 691200, 777600].map
            (fun d => (d, (⟨1, 2, 3, 4, 5⟩ : Row))))]
        "AAPL" "1d" 0 777600 = .ok [(172800, 259200)] :=
  ⟨(get_data_gaps_spec [] "AAPL" "1d" 0 777600 86400 rfl).1 rfl,
   by
    have h := ((get_data_gaps_spec
        [(("AAPL", "1d"),
          [0, 86400, 345600, 432000, 518400, 604800, 691200, 777600].map
            (fun d => (d, (⟨1, 2, 3, 4, 5⟩ : Row))))]
        "AAPL" "1d" 0 777600 86400 rfl).2 _ rfl).1
    rw [h]
    rfl⟩

/-- Witness for `save_data_validation_iff` at the empty frame. -/
theorem save_data_validation_iff_witness :
    ((save_data [] (⟨requiredColumns, []⟩ : Frame) "AAPL" "1d").1 = .error () ↔
      ((⟨requiredColumns, []⟩ : Frame).rows = [] ∨
        (∃ c ∈ requiredColumns, c ∉ (⟨requiredColumns, []⟩ : Frame).cols) ∨
        ∃ p ∈ (⟨requiredColumns, []⟩ : Frame).rows, p.1.isTemporal = false)) ∧
    ((save_data [] (⟨requiredColumns, []⟩ : Frame) "AAPL" "1d").1 = .ok () ↔
      ¬((⟨requiredColumns, []⟩ : Frame).rows = [] ∨
        (∃ c ∈ requiredColumns, c ∉ (⟨requiredColumns, []⟩ : Frame).cols) ∨
        ∃ p ∈ (⟨requiredColumns, []⟩ : Frame).rows, p.1.isTemporal = false)) :=
  save_data_validation_iff [] ⟨requiredColumns, []⟩ "AAPL" "1d"
